import Mathlib

/-!
Verification of the multi-server MCP client library (chatmcp repository).

The development shallowly embeds the core client code:

* `MCPClient` (src/unnamed/part_002, lines 33-301): the per-server transport
  process wrapper, with its line-protocol codec (`setupMessageHandling`),
  request-ID allocation (`sendRequest`), response correlation
  (`handleMessage`), timeout cleanup, and `listTools` degraded mode.
* `MultiMCPClient` (src/unnamed/part_002, lines 303-1178): the aggregator,
  with its TTL-based tool cache (`getAllTools`), the `{serverName}_{toolName}`
  namespacing scheme, the `executeTool` dispatcher and the hard-coded
  `excel-mcp` fallbacks.
* `FirecrawlMCPClient` (src/chatbot-ui/lib/mcp/mcp-client.ts) where its
  behaviour differs from `MCPClient`.
* `executeMCPTool` (src/chatbot-ui/lib/mcp/mcp-integration.ts, lines 103-119).

JavaScript strings are modelled as `List Char` (`Str`), JS `Map`s as
association lists preserving insertion order, and the asynchronous callbacks
as explicit state-transition functions.
-/

/-- JavaScript strings, modelled as lists of characters. -/
abbrev Str := List Char

/-- Coerce a Lean string literal to the `Str` model. -/
def str (s : String) : Str := s.data

/-! ## Line Protocol Codec (`MCPClient.setupMessageHandling`, part_002 lines 171-195)

The handler keeps a mutable `buffer`; each incoming chunk is appended, then
the loop `while ((newlineIndex = buffer.indexOf('\n')) !== -1)` splits off one
line at a time, trims it, skips it when empty, and otherwise JSON-parses it;
a parse failure is logged and skipped.  JSON parsing is abstracted as a
function `p : Str → Option J`. -/

/-- An observable event of the codec: a successfully parsed envelope
(delivered to `handleMessage`) or a logged decode error for the offending
trimmed line. -/
inductive CodecEvent (J : Type) where
  | parsed (j : J)
  | decodeError (line : Str)
deriving DecidableEq

/-- `buffer.indexOf('\n')` followed by the two `slice` calls: splits a buffer
at its first newline, returning the line before it and the remainder after
it, or `none` when the buffer holds no newline. -/
def takeLine : Str → Option (Str × Str)
  | [] => none
  | c :: cs =>
    if c = '\n' then some ([], cs)
    else
      match takeLine cs with
      | none => none
      | some (l, r) => some (c :: l, r)

/-- `String.prototype.trim`: drop whitespace at both ends. -/
def trimChars (s : Str) : Str :=
  ((s.dropWhile Char.isWhitespace).reverse.dropWhile Char.isWhitespace).reverse

/-- The body of the codec loop for one extracted line: `if (line)` skips the
empty trimmed line, `JSON.parse` success reaches `handleMessage`, failure is
logged (`Failed to parse MCP message`) and skipped. -/
def lineEvents {J : Type} (p : Str → Option J) (l : Str) : List (CodecEvent J) :=
  let t := trimChars l
  if t = [] then []
  else
    match p t with
    | some j => [CodecEvent.parsed j]
    | none => [CodecEvent.decodeError t]

/-- The codec loop (`while ((newlineIndex = buffer.indexOf('\n')) !== -1)`)
run to completion on one buffer: returns the left-over buffer (the suffix
after the last newline) together with the events fired, in order. -/
def drainBuffer {J : Type} (p : Str → Option J) (buf : Str) :
    Str × List (CodecEvent J) :=
  match h : takeLine buf with
  | none => (buf, [])
  | some (l, r) =>
    let rest := drainBuffer p r
    (rest.1, lineEvents p l ++ rest.2)
termination_by buf.length
decreasing_by
  have key : ∀ (s l' r' : Str), takeLine s = some (l', r') →
      s.length = l'.length + 1 + r'.length := by
    intro s
    induction s with
    | nil => intro l' r' hh; cases hh
    | cons c cs ih =>
      intro l' r' hh
      simp only [takeLine] at hh
      by_cases hc : c = '\n'
      · simp only [if_pos hc] at hh
        cases hh
        simp only [List.length_cons, List.length_nil]
        omega
      · simp only [if_neg hc] at hh
        cases htl : takeLine cs with
        | none => rw [htl] at hh; cases hh
        | some lr =>
          obtain ⟨l2, r2⟩ := lr
          rw [htl] at hh
          simp only [Option.some.injEq, Prod.mk.injEq] at hh
          obtain ⟨h1, h2⟩ := hh
          subst h1
          subst h2
          have hlen := ih l2 r2 htl
          simp only [List.length_cons, hlen]
          omega
  have := key buf l r h
  simp only [this]
  omega

/-- One `data` callback of `setupMessageHandling`: append the chunk to the
buffer, then drain all complete lines; iterated over a list of chunks. -/
def processChunks {J : Type} (p : Str → Option J) (buf : Str) :
    List Str → Str × List (CodecEvent J)
  | [] => (buf, [])
  | c :: cs =>
    let d := drainBuffer p (buf ++ c)
    let rest := processChunks p d.1 cs
    (rest.1, d.2 ++ rest.2)

/-! ## Transport Process Wrapper (`MCPClient`, part_002 lines 47-301)

Protocol-relevant mutable state of one `MCPClient`: the `requestId` counter
(initialised to `1`), the `pendingRequests` map (modelled by the list of its
keys, since only registration/removal matter here), the `isConnected` flag
and whether the spawned child process is still alive.  The stored
success/failure continuations are modelled by reporting, for each state
transition, which request ID completed and how. -/

structure WrapperState where
  requestId : Nat
  pending : List Nat
  isConnected : Bool
  processAlive : Bool
deriving DecidableEq

/-- Wrapper state right after `connect()` has spawned the child process:
`requestId = 1`, no pending requests, not yet connected. -/
def initialWrapper : WrapperState :=
  { requestId := 1, pending := [], isConnected := false, processAlive := true }

/-- An incoming protocol message, as inspected by `handleMessage`: its `id`
(JavaScript truthiness makes `0` equivalent to a missing id), whether it
carries an `error` member, its `method` member, and whether
`message.result && message.result.serverInfo` is truthy. -/
structure Msg where
  id : Nat
  isError : Bool
  method : Str
  resultServerInfo : Bool
deriving DecidableEq

/-- How a registered request's promise was settled. -/
inductive Completion where
  | success
  | failure
  | timedOut
deriving DecidableEq

/-- `MCPClient.handleMessage` (part_002 lines 197-216): when
`message.id && pendingRequests.has(message.id)`, the entry is deleted and the
stored continuation fired (reject on `message.error`, else resolve); then,
independently, a message with `method === 'initialize'` or with
`result.serverInfo` marks the client connected. -/
def handleMessage (s : WrapperState) (m : Msg) :
    WrapperState × Option (Nat × Completion) :=
  let matched :=
    if m.id ≠ 0 ∧ m.id ∈ s.pending then
      ({ s with pending := s.pending.filter (fun i => i ≠ m.id) },
        some (m.id, if m.isError then Completion.failure else Completion.success))
    else (s, none)
  if m.method = str "initialize" ∨ m.resultServerInfo = true then
    ({ matched.1 with isConnected := true }, matched.2)
  else matched

/-- `FirecrawlMCPClient.handleMessage` (mcp-client.ts lines 84-95): identical
but without the initialization-response check. -/
def firecrawlHandleMessage (s : WrapperState) (m : Msg) :
    WrapperState × Option (Nat × Completion) :=
  if m.id ≠ 0 ∧ m.id ∈ s.pending then
    ({ s with pending := s.pending.filter (fun i => i ≠ m.id) },
      some (m.id, if m.isError then Completion.failure else Completion.success))
  else (s, none)

/-- `MCPClient.sendRequest` (part_002 lines 218-244): `const id =
this.requestId++`, then `pendingRequests.set(id, ...)`.  Returns the new
state and the allocated ID. -/
def sendRequest (s : WrapperState) : WrapperState × Nat :=
  ({ s with requestId := s.requestId + 1, pending := s.requestId :: s.pending },
    s.requestId)

/-- The `initialize` request issued inside `connect()` (part_002 lines
125-157): it consumes `this.requestId++` but registers no pending entry. -/
def sendInitRequest (s : WrapperState) : WrapperState × Nat :=
  ({ s with requestId := s.requestId + 1 }, s.requestId)

/-- The 45-second request timer of `sendRequest` firing (part_002 lines
237-242): if the entry is still pending it is deleted and the caller is
rejected with the timeout error; the child process is not touched. -/
def fireTimeout (s : WrapperState) (id : Nat) :
    WrapperState × Option (Nat × Completion) :=
  if id ∈ s.pending then
    ({ s with pending := s.pending.filter (fun i => i ≠ id) },
      some (id, Completion.timedOut))
  else (s, none)

/-- `setTimeout(..., 45000)` in `MCPClient.sendRequest` (part_002 line 242). -/
def REQUEST_TIMEOUT_MS : Nat := 45000

/-- `setTimeout(..., 30000)` in `FirecrawlMCPClient.sendRequest`
(mcp-client.ts line 121). -/
def FIRECRAWL_REQUEST_TIMEOUT_MS : Nat := 30000

/-- The protocol-visible operations that mutate one wrapper's state. -/
inductive WOp where
  | send
  | sendInit
  | recv (m : Msg)
  | timeout (id : Nat)

/-- State transition of one wrapper operation. -/
def stepW (s : WrapperState) : WOp → WrapperState
  | WOp.send => (sendRequest s).1
  | WOp.sendInit => (sendInitRequest s).1
  | WOp.recv m => (handleMessage s m).1
  | WOp.timeout id => (fireTimeout s id).1

/-- Run a sequence of wrapper operations. -/
def stepsW (s : WrapperState) (ops : List WOp) : WrapperState :=
  ops.foldl stepW s

/-- The request IDs allocated along a run, each paired with the flag
`requestId ∈ pending` observed at the instant of allocation (`true` would
mean the fresh ID collides with an outstanding `PendingRequest`). -/
def allocs (s : WrapperState) : List WOp → List (Nat × Bool)
  | [] => []
  | WOp.send :: ops =>
    (s.requestId, decide (s.requestId ∈ s.pending)) :: allocs (stepW s WOp.send) ops
  | WOp.sendInit :: ops =>
    (s.requestId, decide (s.requestId ∈ s.pending)) ::
      allocs (stepW s WOp.sendInit) ops
  | op :: ops => allocs (stepW s op) ops

/-- Whether an operation completes or could complete the request `i`. -/
def opTargets (i : Nat) : WOp → Bool
  | WOp.recv m => m.id == i
  | WOp.timeout j => j == i
  | _ => false

/-- Every pending ID was allocated below the current counter; holds in
`initialWrapper` and is preserved by every operation. -/
def pendingBound (s : WrapperState) : Prop :=
  ∀ i ∈ s.pending, i < s.requestId

/-- What firing the request timer for ID `i` in state `sm` guarantees: the
caller is rejected with the timeout completion, the `PendingRequest` entry is
gone, the process is not killed, a late response carrying `i` completes
nothing, and a subsequent `sendRequest` allocates a strictly larger ID that
is duly registered. -/
def timeoutCleanupSpec (sm : WrapperState) (i : Nat) : Prop :=
  (fireTimeout sm i).2 = some (i, Completion.timedOut) ∧
  i ∉ (fireTimeout sm i).1.pending ∧
  (fireTimeout sm i).1.processAlive = sm.processAlive ∧
  (∀ m : Msg, m.id = i → (handleMessage (fireTimeout sm i).1 m).2 = none) ∧
  i < (sendRequest (fireTimeout sm i).1).2 ∧
  (sendRequest (fireTimeout sm i).1).2
    ∈ (sendRequest (fireTimeout sm i).1).1.pending

/-! ## `connect()` spawn guard (`MCPClient.connect`, part_002 lines 60-73;
`FirecrawlMCPClient.connect`, mcp-client.ts lines 9-20)

The synchronous prefix of `connect()`: the only guard before
`this.process = spawn(...)` is `if (this.isConnected) return;`, and
`isConnected` stays `false` until a readiness signal arrives, i.e. for the
whole duration of an in-flight connection attempt. -/

structure ConnectState where
  isConnected : Bool
  liveProcesses : Nat
deriving DecidableEq

/-- One call to `connect()` up to and including its `spawn`. -/
def connectCall (s : ConnectState) : ConnectState :=
  if s.isConnected then s
  else { isConnected := s.isConnected, liveProcesses := s.liveProcesses + 1 }

/-! ## MultiMCPClient (part_002 lines 303-1178) -/

/-- A tool descriptor as reported by a server; only the name participates in
the namespacing and dispatch logic. -/
structure Tool where
  name : Str
deriving DecidableEq

/-- A namespaced tool as built by `getAllTools`:
`{...tool, name: `${serverName}_${tool.name}`, serverName}`. -/
structure NTool where
  name : Str
  serverName : Str
deriving DecidableEq

/-- The namespacing step applied to each tool of a server. -/
def prefixTool (serverName : Str) (t : Tool) : NTool :=
  { name := serverName ++ '_' :: t.name, serverName := serverName }

/-- The hard-coded server name the aggregator special-cases. -/
def excelName : Str := str "excel-mcp"

/-- `MultiMCPClient.getExcelMCPServerTools` (part_002 lines 509-857), the
statically declared fallback tool list (names only). -/
def getExcelMCPServerTools : List Tool :=
  [⟨str "apply_formula"⟩, ⟨str "validate_formula_syntax"⟩,
   ⟨str "read_data_from_excel"⟩, ⟨str "write_data_to_excel"⟩,
   ⟨str "create_workbook"⟩, ⟨str "create_worksheet"⟩, ⟨str "create_chart"⟩,
   ⟨str "create_pivot_table"⟩, ⟨str "create_table"⟩, ⟨str "copy_worksheet"⟩,
   ⟨str "delete_worksheet"⟩, ⟨str "rename_worksheet"⟩,
   ⟨str "get_workbook_metadata"⟩, ⟨str "merge_cells"⟩, ⟨str "unmerge_cells"⟩,
   ⟨str "get_merged_cells"⟩, ⟨str "copy_range"⟩, ⟨str "delete_range"⟩,
   ⟨str "validate_excel_range"⟩, ⟨str "search_excel_files"⟩,
   ⟨str "get_common_excel_locations"⟩, ⟨str "get_data_validation_info"⟩,
   ⟨str "format_range"⟩]

/-- Mutable state of `MultiMCPClient`: the registered clients (name and
current `getConnectionStatus()`), the `toolsCache` map (insertion order
preserved, as for a JS `Map`), and `lastToolsRefresh`. -/
structure MultiState where
  clients : List (Str × Bool)
  toolsCache : List (Str × List NTool)
  lastToolsRefresh : Nat

/-- `private readonly TOOLS_CACHE_TTL = 5 * 60 * 1000` (part_002 line 307). -/
def TOOLS_CACHE_TTL : Nat := 5 * 60 * 1000

/-- JS `Map.set`: replace in place when the key exists, append otherwise. -/
def mapSet {α : Type} : List (Str × α) → Str → α → List (Str × α)
  | [], k, v => [(k, v)]
  | (k', v') :: rest, k, v =>
    if k' = k then (k, v) :: rest else (k', v') :: mapSet rest k v

/-- The refresh loop of `getAllTools` (part_002 lines 401-435).  `f` gives
the outcome of `client.listTools()` for each server (`none` = the promise
rejected).  Returns the accumulated prefixed tools, the updated cache, and
the list of servers to which a `tools/list` discovery request was issued. -/
def refreshLoop (f : Str → Option (List Tool)) :
    List (Str × Bool) → List (Str × List NTool) →
      List NTool × List (Str × List NTool) × List Str
  | [], cache => ([], cache, [])
  | (serverName, conn) :: rest, cache =>
    if conn then
      if serverName = excelName then
        let prefixed := getExcelMCPServerTools.map (prefixTool serverName)
        let r := refreshLoop f rest (mapSet cache serverName prefixed)
        (prefixed ++ r.1, r.2.1, r.2.2)
      else
        match f serverName with
        | some tools =>
          let prefixed := tools.map (prefixTool serverName)
          let r := refreshLoop f rest (mapSet cache serverName prefixed)
          (prefixed ++ r.1, r.2.1, serverName :: r.2.2)
        | none =>
          let r := refreshLoop f rest cache
          (r.1, r.2.1, serverName :: r.2.2)
    else refreshLoop f rest cache

/-- Result of one `getAllTools()` call: the returned list, the state after
the call, and the discovery requests issued during the call. -/
structure GatResult where
  tools : List NTool
  final : MultiState
  reqs : List Str

/-- `MultiMCPClient.getAllTools` (part_002 lines 386-439): serve from the
cache when it is fresh and non-empty, otherwise run the refresh loop over
all registered clients and record the refresh timestamp afterwards. -/
def getAllTools (now : Nat) (f : Str → Option (List Tool)) (s : MultiState) :
    GatResult :=
  if now - s.lastToolsRefresh < TOOLS_CACHE_TTL ∧ 0 < s.toolsCache.length then
    { tools := (s.toolsCache.map Prod.snd).flatten, final := s, reqs := [] }
  else
    let r := refreshLoop f s.clients s.toolsCache
    { tools := r.1,
      final := { clients := s.clients, toolsCache := r.2.1,
                 lastToolsRefresh := now },
      reqs := r.2.2 }

/-- The contribution of a single registered client to a cache refresh. -/
def serverSlice (f : Str → Option (List Tool)) (q : Str × Bool) :
    List NTool :=
  if q.2 then
    if q.1 = excelName then getExcelMCPServerTools.map (prefixTool q.1)
    else
      match f q.1 with
      | some tools => tools.map (prefixTool q.1)
      | none => []
  else []

/-- A cache slice stored under key `k` consists of tools of `k` namespaced
by `prefixTool`, with pairwise-distinct original names. -/
def sliceWF (k : Str) (slice : List NTool) : Prop :=
  ∃ ts : List Tool, slice = ts.map (prefixTool k) ∧ (ts.map Tool.name).Nodup

/-- Well-formedness of the tool cache: every slice is namespaced under its
key, keys are pairwise distinct, and no key contains the separator. -/
def cacheWF (s : MultiState) : Prop :=
  (∀ q ∈ s.toolsCache, sliceWF q.1 q.2) ∧
  (s.toolsCache.map Prod.fst).Nodup ∧
  ∀ q ∈ s.toolsCache, '_' ∉ q.1

/-- `Map.get` on the registered-clients map. -/
def lookupClient : List (Str × Bool) → Str → Option Bool
  | [], _ => none
  | (n, c) :: rest, k => if n = k then some c else lookupClient rest k

/-- JS `String.prototype.split` with a single-character separator. -/
def splitSep (c : Char) : Str → List Str
  | [] => [[]]
  | d :: rest =>
    if d = c then [] :: splitSep c rest
    else
      match splitSep c rest with
      | [] => [[d]]
      | l :: ls => (d :: l) :: ls

/-- Observable outcome of `MultiMCPClient.executeTool`. -/
inductive ExecOutcome where
  | unknownServer (serverName : Str)
  | notConnected (serverName : Str)
  | excelFallback (toolName : Str)
  | excelUnimplemented (toolName : Str)
  | forwarded (serverName toolName : Str)
deriving DecidableEq

/-- `MultiMCPClient.executeTool` (part_002 lines 441-481): split the
namespaced name on `'_'`, take `parts[0]` as the server name and
`parts.slice(1).join('_')` as the tool name; validate registration and
connection; dispatch `excel-mcp` tools to the local fallbacks; otherwise
forward to the owning client's `callTool`. -/
def executeTool (clients : List (Str × Bool)) (toolName : Str) : ExecOutcome :=
  let parts := splitSep '_' toolName
  let serverName := parts.headD []
  let actualToolName := List.intercalate ['_'] (parts.drop 1)
  match lookupClient clients serverName with
  | none => ExecOutcome.unknownServer serverName
  | some conn =>
    if conn = false then ExecOutcome.notConnected serverName
    else if serverName = excelName then
      if actualToolName = str "search_excel_files" then
        ExecOutcome.excelFallback actualToolName
      else if actualToolName = str "get_common_excel_locations" then
        ExecOutcome.excelFallback actualToolName
      else if actualToolName = str "read_data_from_excel" then
        ExecOutcome.excelFallback actualToolName
      else if actualToolName = str "get_workbook_metadata" then
        ExecOutcome.excelFallback actualToolName
      else ExecOutcome.excelUnimplemented actualToolName
    else ExecOutcome.forwarded serverName actualToolName

/-- The requests an `executeTool` outcome writes to a child process: only
the forwarded `tools/call` touches a process. -/
def processWrites : ExecOutcome → List (Str × Str)
  | ExecOutcome.forwarded serverName toolName => [(serverName, toolName)]
  | _ => []

/-- `MCPClient.listTools` (part_002 lines 255-281): `r1` is the outcome of
`sendRequest('tools/list')`; `r2` the outcome of the retry
`sendRequest('tools/list', {})`, consulted only when `r1` rejects.
`Except.error` models a rejected promise, the inner `Option` the presence of
the `tools` member (`response.tools || []`).  The outer catch returns `[]`
on the `excel-mcp` branch and returns `[]` on the general branch as well. -/
def listTools (serverName : Str) (r1 r2 : Except Str (Option (List Tool))) :
    List Tool :=
  match r1 with
  | Except.ok resp => resp.getD []
  | Except.error _ =>
    match r2 with
    | Except.ok resp => resp.getD []
    | Except.error _ => if serverName = excelName then [] else []

/-! ## `executeMCPTool` (mcp-integration.ts lines 103-119) -/

/-- A client interaction performed by the integration layer. -/
inductive DispatchAction where
  | multiExecute (toolName : Str)
  | firecrawlConnect
  | firecrawlCallTool (toolName : Str)
deriving DecidableEq

/-- `executeMCPTool`: names containing `'_'` go to
`multiMCPClient.executeTool`; all other names connect the singleton
firecrawl client and forward the un-namespaced name to its `callTool`. -/
def executeMCPTool (toolName : Str) : List DispatchAction :=
  if toolName.contains '_' then [DispatchAction.multiExecute toolName]
  else [DispatchAction.firecrawlConnect, DispatchAction.firecrawlCallTool toolName]

theorem takeLine_eq_none {s : Str} (h : takeLine s = none) : '\n' ∉ s := by
  induction s with
  | nil => simp
  | cons c cs ih =>
    simp only [takeLine] at h
    by_cases hc : c = '\n'
    · simp [hc] at h
    · simp only [if_neg hc] at h
      cases htl : takeLine cs with
      | none =>
        intro hm
        rcases List.mem_cons.mp hm with h1 | h1
        · exact hc h1.symm
        · exact ih htl h1
      | some lr => rw [htl] at h; cases h

theorem takeLine_eq_some {s l r : Str} (h : takeLine s = some (l, r)) :
    s = l ++ '\n' :: r ∧ '\n' ∉ l := by
  induction s generalizing l r with
  | nil => cases h
  | cons c cs ih =>
    simp only [takeLine] at h
    by_cases hc : c = '\n'
    · simp only [if_pos hc] at h
      obtain ⟨hl, hr⟩ := Prod.mk.injEq .. ▸ Option.some.injEq .. ▸ h
      subst hc
      cases hl; cases hr
      simp
    · simp only [if_neg hc] at h
      cases htl : takeLine cs with
      | none => rw [htl] at h; cases h
      | some lr =>
        obtain ⟨l', r'⟩ := lr
        rw [htl] at h
        obtain ⟨h1, h2⟩ := ih htl
        cases h
        constructor
        · simpa using h1
        · intro hm
          rcases List.mem_cons.mp hm with h3 | h3
          · exact hc h3.symm
          · exact h2 h3

theorem takeLine_append {l : Str} (r : Str) (hl : '\n' ∉ l) :
    takeLine (l ++ '\n' :: r) = some (l, r) := by
  induction l with
  | nil => simp [takeLine]
  | cons c cs ih =>
    have hc : c ≠ '\n' := by intro hc; exact hl (by simp [hc])
    have hcs : '\n' ∉ cs := fun h => hl (by simp [h])
    simp [takeLine, hc, ih hcs]

theorem takeLine_no_newline {s : Str} (h : '\n' ∉ s) : takeLine s = none := by
  induction s with
  | nil => rfl
  | cons c cs ih =>
    have hc : c ≠ '\n' := by intro hc; exact h (by simp [hc])
    have hcs : '\n' ∉ cs := fun hm => h (by simp [hm])
    simp [takeLine, hc, ih hcs]

theorem drainBuffer_no_newline {J : Type} (p : Str → Option J) {buf : Str}
    (h : '\n' ∉ buf) : drainBuffer p buf = (buf, []) := by
  rw [drainBuffer]
  rw [takeLine_no_newline h]

theorem drainBuffer_line {J : Type} (p : Str → Option J) {l : Str} (r : Str)
    (hl : '\n' ∉ l) :
    drainBuffer p (l ++ '\n' :: r) =
      ((drainBuffer p r).1, lineEvents p l ++ (drainBuffer p r).2) := by
  rw [drainBuffer]
  rw [takeLine_append r hl]

theorem drainBuffer_nil {J : Type} (p : Str → Option J) :
    drainBuffer p [] = ([], []) :=
  drainBuffer_no_newline p (by simp)

/-- Incrementality of the codec loop: draining `a ++ b` is draining `a`, then
draining the left-over buffer of `a` extended with `b`. -/
theorem drainBuffer_append_aux {J : Type} (p : Str → Option J) (n : Nat) :
    ∀ a b : Str, a.length ≤ n →
      drainBuffer p (a ++ b) =
        ((drainBuffer p ((drainBuffer p a).1 ++ b)).1,
         (drainBuffer p a).2 ++ (drainBuffer p ((drainBuffer p a).1 ++ b)).2) := by
  induction n with
  | zero =>
    intro a b ha
    have hanil : a = [] := List.length_eq_zero.mp (Nat.le_zero.mp ha)
    subst hanil
    simp [drainBuffer_nil]
  | succ n ih =>
    intro a b ha
    cases htl : takeLine a with
    | none =>
      have hnb : '\n' ∉ a := takeLine_eq_none htl
      rw [drainBuffer_no_newline p hnb]
      simp
    | some lr =>
      obtain ⟨l, r⟩ := lr
      obtain ⟨hsplit, hnl⟩ := takeLine_eq_some htl
      subst hsplit
      have hlen : r.length ≤ n := by
        simp at ha
        omega
      have hshape : (l ++ '\n' :: r) ++ b = l ++ '\n' :: (r ++ b) := by simp
      rw [hshape, drainBuffer_line p (r ++ b) hnl, drainBuffer_line p r hnl,
        ih r b hlen]
      simp

theorem drainBuffer_append {J : Type} (p : Str → Option J) (a b : Str) :
    drainBuffer p (a ++ b) =
      ((drainBuffer p ((drainBuffer p a).1 ++ b)).1,
       (drainBuffer p a).2 ++ (drainBuffer p ((drainBuffer p a).1 ++ b)).2) :=
  drainBuffer_append_aux p a.length a b (Nat.le_refl _)

/-- The left-over buffer never contains a newline. -/
theorem drainBuffer_fst_no_newline_aux {J : Type} (p : Str → Option J)
    (n : Nat) : ∀ s : Str, s.length ≤ n → '\n' ∉ (drainBuffer p s).1 := by
  induction n with
  | zero =>
    intro s hs
    have : s = [] := List.length_eq_zero.mp (Nat.le_zero.mp hs)
    subst this
    rw [drainBuffer_nil]
    simp
  | succ n ih =>
    intro s hs
    cases htl : takeLine s with
    | none =>
      rw [drainBuffer_no_newline p (takeLine_eq_none htl)]
      exact takeLine_eq_none htl
    | some lr =>
      obtain ⟨l, r⟩ := lr
      obtain ⟨hsplit, hnl⟩ := takeLine_eq_some htl
      subst hsplit
      rw [drainBuffer_line p r hnl]
      have hlen : r.length ≤ n := by
        simp at hs
        omega
      exact ih r hlen

theorem drainBuffer_fst_no_newline {J : Type} (p : Str → Option J) (s : Str) :
    '\n' ∉ (drainBuffer p s).1 :=
  drainBuffer_fst_no_newline_aux p s.length s (Nat.le_refl _)

/-- Feeding chunks one at a time is the same as draining the concatenation of
all chunks at once, provided the starting buffer holds no newline. -/
theorem processChunks_eq_drain {J : Type} (p : Str → Option J) :
    ∀ (cs : List Str) (buf : Str), '\n' ∉ buf →
      processChunks p buf cs = drainBuffer p (buf ++ cs.flatten) := by
  intro cs
  induction cs with
  | nil =>
    intro buf hb
    simp [processChunks, drainBuffer_no_newline p hb]
  | cons c cs ih =>
    intro buf hb
    have hres := drainBuffer_fst_no_newline p (buf ++ c)
    simp only [processChunks]
    rw [ih _ hres]
    have hshape : buf ++ (c :: cs).flatten = (buf ++ c) ++ cs.flatten := by simp
    rw [hshape, drainBuffer_append p (buf ++ c) cs.flatten]

/-- Draining a buffer made of complete newline-terminated lines fires exactly
the events of those lines, in order, and empties the buffer. -/
theorem drainBuffer_lines {J : Type} (p : Str → Option J) :
    ∀ ls : List Str, (∀ l ∈ ls, '\n' ∉ l) →
      drainBuffer p ((ls.map (fun l => l ++ ['\n'])).flatten) =
        ([], ls.flatMap (lineEvents p)) := by
  intro ls
  induction ls with
  | nil =>
    intro _
    simpa using drainBuffer_nil p
  | cons l ls ih =>
    intro h
    have hl : '\n' ∉ l := h l (by simp)
    have hshape :
        ((l :: ls).map (fun l => l ++ ['\n'])).flatten =
          l ++ '\n' :: (ls.map (fun l => l ++ ['\n'])).flatten := by
      simp
    rw [hshape, drainBuffer_line p _ hl, ih (fun x hx => h x (by simp [hx]))]
    simp

/-- Claim C1: for every sequence of byte chunks delivered to the stdout
handler installed by `setupMessageHandling` that, concatenated, forms a
sequence of newline-terminated lines, the codec fires exactly the events of
those lines in order, independent of where the chunk boundaries fall: each
line whose trimmed text parses yields one `parsed` event with the decoded
object, an empty (all-whitespace) line is skipped, and a line that fails to
parse yields a `decodeError` event and is skipped without terminating
processing (subsequent lines still fire). -/
theorem setupMessageHandling_codec_correct {J : Type} (p : Str → Option J)
    (cs ls : List Str) (hls : ∀ l ∈ ls, '\n' ∉ l)
    (hjoin : cs.flatten = (ls.map (fun l => l ++ ['\n'])).flatten) :
    processChunks p [] cs = ([], ls.flatMap (lineEvents p)) := by
  rw [processChunks_eq_drain p cs [] (by simp)]
  simp only [List.nil_append]
  rw [hjoin]
  exact drainBuffer_lines p ls hls

/-- Witness for C1: chunks `"4"`, `"2\n"`, `"x\n\n"` — a boundary falls in
the middle of the object `42`, one chunk carries two newlines, the line `x`
fails to parse, and the final line is empty. -/
theorem setupMessageHandling_codec_correct_witness :
    ((∀ l ∈ [str "42", str "x", str ""], '\n' ∉ l) ∧
      [str "4", str "2\n", str "x\n\n"].flatten =
        ([str "42", str "x", str ""].map (fun l => l ++ ['\n'])).flatten) ∧
    processChunks (fun s => (String.mk s).toNat?) []
        [str "4", str "2\n", str "x\n\n"] =
      ([], [str "42", str "x", str ""].flatMap
        (lineEvents (fun s => (String.mk s).toNat?))) :=
  ⟨⟨by decide, by decide⟩,
    setupMessageHandling_codec_correct (fun s => (String.mk s).toNat?)
      [str "4", str "2\n", str "x\n\n"] [str "42", str "x", str ""]
      (by decide) (by decide)⟩

/-! ### Request-ID allocation and response correlation (C2, C7, C8) -/

theorem handleMessage_fst_requestId (s : WrapperState) (m : Msg) :
    (handleMessage s m).1.requestId = s.requestId := by
  simp only [handleMessage]
  split <;> split <;> rfl

theorem handleMessage_fst_processAlive (s : WrapperState) (m : Msg) :
    (handleMessage s m).1.processAlive = s.processAlive := by
  simp only [handleMessage]
  split <;> split <;> rfl

theorem handleMessage_fst_pending (s : WrapperState) (m : Msg) :
    (handleMessage s m).1.pending = s.pending ∨
    (handleMessage s m).1.pending = s.pending.filter (fun i => i ≠ m.id) := by
  simp only [handleMessage]
  by_cases h1 : m.id ≠ 0 ∧ m.id ∈ s.pending
  · rw [if_pos h1]
    right
    split <;> rfl
  · rw [if_neg h1]
    left
    split <;> rfl

theorem handleMessage_snd_none {s : WrapperState} {m : Msg}
    (h : m.id ∉ s.pending) : (handleMessage s m).2 = none := by
  have hcond : ¬(m.id ≠ 0 ∧ m.id ∈ s.pending) := fun hc => h hc.2
  simp only [handleMessage, if_neg hcond]
  split <;> rfl

theorem fireTimeout_fst_requestId (s : WrapperState) (id : Nat) :
    (fireTimeout s id).1.requestId = s.requestId := by
  simp only [fireTimeout]
  split <;> rfl

theorem fireTimeout_fst_processAlive (s : WrapperState) (id : Nat) :
    (fireTimeout s id).1.processAlive = s.processAlive := by
  simp only [fireTimeout]
  split <;> rfl

theorem stepW_requestId_le (s : WrapperState) (op : WOp) :
    s.requestId ≤ (stepW s op).requestId := by
  cases op with
  | send => simp [stepW, sendRequest]
  | sendInit => simp [stepW, sendInitRequest]
  | recv m => simp [stepW, handleMessage_fst_requestId]
  | timeout id => simp [stepW, fireTimeout_fst_requestId]

theorem stepW_pendingBound {s : WrapperState} (h : pendingBound s)
    (op : WOp) : pendingBound (stepW s op) := by
  cases op with
  | send =>
    intro i hi
    simp only [stepW, sendRequest, List.mem_cons] at hi ⊢
    rcases hi with rfl | hi
    · omega
    · have := h i hi
      omega
  | sendInit =>
    intro i hi
    simp only [stepW, sendInitRequest] at hi ⊢
    have := h i hi
    omega
  | recv m =>
    intro i hi
    simp only [stepW] at hi ⊢
    rw [handleMessage_fst_requestId]
    rcases handleMessage_fst_pending s m with hp | hp
    · rw [hp] at hi
      exact h i hi
    · rw [hp] at hi
      exact h i (List.mem_of_mem_filter hi)
  | timeout id =>
    intro i hi
    simp only [stepW] at hi ⊢
    rw [fireTimeout_fst_requestId]
    simp only [fireTimeout] at hi
    split at hi
    · exact h i (List.mem_of_mem_filter hi)
    · exact h i hi

theorem allocs_bounded :
    ∀ (ops : List WOp) (s : WrapperState), pendingBound s →
      List.Chain' (fun a b => a.1 < b.1) (allocs s ops) ∧
      ∀ e ∈ allocs s ops, s.requestId ≤ e.1 ∧ e.2 = false := by
  intro ops
  induction ops with
  | nil =>
    intro s _
    simp [allocs]
  | cons op ops ih =>
    intro s hs
    have hs' := stepW_pendingBound hs op
    obtain ⟨hchain, hall⟩ := ih _ hs'
    have hfresh : decide (s.requestId ∈ s.pending) = false := by
      apply decide_eq_false
      intro hmem
      exact absurd (hs _ hmem) (lt_irrefl _)
    cases op with
    | send =>
      have hstep : (stepW s WOp.send).requestId = s.requestId + 1 := by
        simp [stepW, sendRequest]
      constructor
      · simp only [allocs]
        rw [List.chain'_cons']
        refine ⟨?_, hchain⟩
        intro y hy
        have hy' := hall y (List.mem_of_mem_head? hy)
        omega
      · intro e he
        simp only [allocs, List.mem_cons] at he
        rcases he with rfl | he
        · exact ⟨Nat.le_refl _, hfresh⟩
        · have := hall e he
          exact ⟨by omega, this.2⟩
    | sendInit =>
      have hstep : (stepW s WOp.sendInit).requestId = s.requestId + 1 := by
        simp [stepW, sendInitRequest]
      constructor
      · simp only [allocs]
        rw [List.chain'_cons']
        refine ⟨?_, hchain⟩
        intro y hy
        have hy' := hall y (List.mem_of_mem_head? hy)
        omega
      · intro e he
        simp only [allocs, List.mem_cons] at he
        rcases he with rfl | he
        · exact ⟨Nat.le_refl _, hfresh⟩
        · have := hall e he
          exact ⟨by omega, this.2⟩
    | recv m =>
      have hstep := stepW_requestId_le s (WOp.recv m)
      constructor
      · simpa only [allocs] using hchain
      · intro e he
        simp only [allocs] at he
        have := hall e he
        exact ⟨by omega, this.2⟩
    | timeout id =>
      have hstep := stepW_requestId_le s (WOp.timeout id)
      constructor
      · simpa only [allocs] using hchain
      · intro e he
        simp only [allocs] at he
        have := hall e he
        exact ⟨by omega, this.2⟩

/-- Claim C2: along every run of wrapper operations started at the freshly
spawned state — `sendRequest` calls, the `initialize` request issued during
`connect()`, incoming responses, request timeouts — the allocated request
IDs are strictly increasing, and no ID is ever allocated while a
`PendingRequest` entry for that same numeric value is still in the pending
map (the collision flag recorded at each allocation is always `false`). -/
theorem sendRequest_ids_strictly_increasing (ops : List WOp) :
    List.Chain' (fun a b => a.1 < b.1) (allocs initialWrapper ops) ∧
    ∀ e ∈ allocs initialWrapper ops, e.2 = false := by
  obtain ⟨h1, h2⟩ :=
    allocs_bounded ops initialWrapper (by intro i hi; cases hi)
  exact ⟨h1, fun e he => (h2 e he).2⟩

theorem stepW_pending_mem {i : Nat} {s : WrapperState} {op : WOp}
    (hi : i ∈ s.pending) (hop : opTargets i op = false) :
    i ∈ (stepW s op).pending := by
  cases op with
  | send =>
    simp only [stepW, sendRequest]
    exact List.mem_cons_of_mem _ hi
  | sendInit =>
    simpa only [stepW, sendInitRequest] using hi
  | recv m =>
    have hne : m.id ≠ i := by simpa [opTargets] using hop
    simp only [stepW]
    rcases handleMessage_fst_pending s m with hp | hp
    · rw [hp]
      exact hi
    · rw [hp]
      exact List.mem_filter.mpr ⟨hi, decide_eq_true (fun hh => hne hh.symm)⟩
  | timeout j =>
    have hne : j ≠ i := by simpa [opTargets] using hop
    simp only [stepW, fireTimeout]
    split
    · exact List.mem_filter.mpr ⟨hi, decide_eq_true (fun hh => hne hh.symm)⟩
    · exact hi

theorem stepsW_pending_mem {i : Nat} :
    ∀ (ops : List WOp) (s : WrapperState), i ∈ s.pending →
      (∀ op ∈ ops, opTargets i op = false) → i ∈ (stepsW s ops).pending := by
  intro ops
  induction ops with
  | nil =>
    intro s hi _
    exact hi
  | cons op ops ih =>
    intro s hi hops
    simp only [stepsW, List.foldl_cons]
    exact ih _ (stepW_pending_mem hi (hops op (by simp)))
      (fun o ho => hops o (by simp [ho]))

theorem stepsW_requestId_le :
    ∀ (ops : List WOp) (s : WrapperState),
      s.requestId ≤ (stepsW s ops).requestId := by
  intro ops
  induction ops with
  | nil =>
    intro s
    exact Nat.le_refl _
  | cons op ops ih =>
    intro s
    simp only [stepsW, List.foldl_cons]
    exact Nat.le_trans (stepW_requestId_le s op) (ih (stepW s op))

/-- Claim C7: a request sent on a wrapper and never answered — any
interleaved operations must not carry its ID — is, when its timer fires,
rejected with the timeout completion and its `PendingRequest` entry removed;
the process is not killed; a late response bearing that ID completes
nothing; and a subsequent `sendRequest` on the same wrapper allocates a
strictly larger ID that is duly registered, so the wrapper stays usable.
The timeout windows (45 s in `MCPClient`, 30 s in `FirecrawlMCPClient`) lie
within the acceptable 30-45 second range. -/
theorem request_timeout_cleanup (s : WrapperState) (mid : List WOp)
    (hmid : ∀ op ∈ mid, opTargets (sendRequest s).2 op = false) :
    timeoutCleanupSpec (stepsW (sendRequest s).1 mid) (sendRequest s).2 ∧
    30 * 1000 ≤ REQUEST_TIMEOUT_MS ∧ REQUEST_TIMEOUT_MS ≤ 45 * 1000 ∧
    30 * 1000 ≤ FIRECRAWL_REQUEST_TIMEOUT_MS ∧
    FIRECRAWL_REQUEST_TIMEOUT_MS ≤ 45 * 1000 := by
  have hid : (sendRequest s).2 = s.requestId := rfl
  have hmem0 : (sendRequest s).2 ∈ (sendRequest s).1.pending := by
    simp [sendRequest]
  have hmem : (sendRequest s).2 ∈ (stepsW (sendRequest s).1 mid).pending :=
    stepsW_pending_mem mid _ hmem0 hmid
  set sm := stepsW (sendRequest s).1 mid with hsm
  have hnotmem :
      (sendRequest s).2 ∉ (fireTimeout sm (sendRequest s).2).1.pending := by
    simp only [fireTimeout, if_pos hmem]
    intro hmemf
    have := (List.mem_filter.mp hmemf).2
    simp at this
  refine ⟨⟨?_, hnotmem, ?_, ?_, ?_, ?_⟩, by decide, by decide, by decide,
    by decide⟩
  · simp only [fireTimeout, if_pos hmem]
  · exact fireTimeout_fst_processAlive sm (sendRequest s).2
  · intro m hm
    apply handleMessage_snd_none
    rw [hm]
    exact hnotmem
  · have h1 : (sendRequest (fireTimeout sm (sendRequest s).2).1).2
        = (fireTimeout sm (sendRequest s).2).1.requestId := rfl
    rw [h1, fireTimeout_fst_requestId]
    have h2 : (sendRequest s).1.requestId ≤ sm.requestId := by
      rw [hsm]
      exact stepsW_requestId_le mid (sendRequest s).1
    have h3 : (sendRequest s).1.requestId = s.requestId + 1 := rfl
    rw [hid]
    omega
  · simp [sendRequest]

/-- Witness for C7: from the freshly spawned wrapper, send a request
(allocating ID 1), let an unrelated response (ID 7) arrive in between, then
fire the timer for ID 1. -/
theorem request_timeout_cleanup_witness :
    (∀ op ∈ [WOp.recv ⟨7, false, str "x", false⟩],
      opTargets (sendRequest initialWrapper).2 op = false) ∧
    (timeoutCleanupSpec
      (stepsW (sendRequest initialWrapper).1
        [WOp.recv ⟨7, false, str "x", false⟩])
      (sendRequest initialWrapper).2 ∧
    30 * 1000 ≤ REQUEST_TIMEOUT_MS ∧ REQUEST_TIMEOUT_MS ≤ 45 * 1000 ∧
    30 * 1000 ≤ FIRECRAWL_REQUEST_TIMEOUT_MS ∧
    FIRECRAWL_REQUEST_TIMEOUT_MS ≤ 45 * 1000) := by
  have hmid : ∀ op ∈ [WOp.recv ⟨7, false, str "x", false⟩],
      opTargets (sendRequest initialWrapper).2 op = false := by
    intro op hop
    rw [List.mem_singleton] at hop
    subst hop
    decide
  exact ⟨hmid, request_timeout_cleanup initialWrapper _ hmid⟩

/-- Claim C8 (counterexample): a message whose ID (3) matches no pending
entry but which carries `result.serverInfo` makes `MCPClient.handleMessage`
flip the wrapper's connection state from `false` to `true`, so wrapper state
is not left unchanged as the claim requires. -/
theorem handleMessage_unmatched_mutates_state :
    ((3 : Nat) ∉ (⟨5, [], false, true⟩ : WrapperState).pending) ∧
    (handleMessage ⟨5, [], false, true⟩ ⟨3, false, str "x", true⟩).1.isConnected
      ≠ (⟨5, [], false, true⟩ : WrapperState).isConnected := by
  decide

/-- Claim C8 (amended): a message whose ID matches no `PendingRequest` (or
whose ID is `0`, which JavaScript treats as absent) completes no request and
leaves the pending map, the request counter and the process untouched, in
both clients; `FirecrawlMCPClient.handleMessage` leaves the state entirely
unchanged, while `MCPClient.handleMessage` additionally sets the connection
flag to `true` — and only changes it — when the message looks like an
initialization response (`method === 'initialize'` or `result.serverInfo`
present). -/
theorem handleMessage_unmatched_ignored (s : WrapperState) (m : Msg)
    (h : m.id = 0 ∨ m.id ∉ s.pending) :
    (handleMessage s m).2 = none ∧
    (handleMessage s m).1.pending = s.pending ∧
    (handleMessage s m).1.requestId = s.requestId ∧
    (handleMessage s m).1.processAlive = s.processAlive ∧
    ((m.method = str "initialize" ∨ m.resultServerInfo = true) →
      (handleMessage s m).1.isConnected = true) ∧
    (¬(m.method = str "initialize" ∨ m.resultServerInfo = true) →
      (handleMessage s m).1.isConnected = s.isConnected) ∧
    firecrawlHandleMessage s m = (s, none) := by
  have hcond : ¬(m.id ≠ 0 ∧ m.id ∈ s.pending) := by
    intro hc
    rcases h with h | h
    · exact hc.1 h
    · exact h hc.2
  refine ⟨?_, ?_, ?_, ?_, ?_, ?_, ?_⟩
  · simp only [handleMessage, if_neg hcond]
    split <;> rfl
  · simp only [handleMessage, if_neg hcond]
    split <;> rfl
  · simp only [handleMessage, if_neg hcond]
    split <;> rfl
  · simp only [handleMessage, if_neg hcond]
    split <;> rfl
  · intro hinit
    simp only [handleMessage, if_neg hcond, if_pos hinit]
  · intro hinit
    simp only [handleMessage, if_neg hcond, if_neg hinit]
  · simp only [firecrawlHandleMessage, if_neg hcond]

/-- Witness for C8 (amended claim): a response with unmatched ID 9 arriving
at the freshly spawned wrapper. -/
theorem handleMessage_unmatched_ignored_witness :
    ((9 : Nat) = 0 ∨ (9 : Nat) ∉ initialWrapper.pending) ∧
    ((handleMessage initialWrapper ⟨9, false, str "x", false⟩).2 = none ∧
    (handleMessage initialWrapper ⟨9, false, str "x", false⟩).1.pending
      = initialWrapper.pending ∧
    (handleMessage initialWrapper ⟨9, false, str "x", false⟩).1.requestId
      = initialWrapper.requestId ∧
    (handleMessage initialWrapper ⟨9, false, str "x", false⟩).1.processAlive
      = initialWrapper.processAlive ∧
    (((⟨9, false, str "x", false⟩ : Msg).method = str "initialize" ∨
        (⟨9, false, str "x", false⟩ : Msg).resultServerInfo = true) →
      (handleMessage initialWrapper ⟨9, false, str "x", false⟩).1.isConnected
        = true) ∧
    (¬((⟨9, false, str "x", false⟩ : Msg).method = str "initialize" ∨
        (⟨9, false, str "x", false⟩ : Msg).resultServerInfo = true) →
      (handleMessage initialWrapper ⟨9, false, str "x", false⟩).1.isConnected
        = initialWrapper.isConnected) ∧
    firecrawlHandleMessage initialWrapper ⟨9, false, str "x", false⟩
      = (initialWrapper, none)) :=
  ⟨Or.inr (by decide),
    handleMessage_unmatched_ignored initialWrapper ⟨9, false, str "x", false⟩
      (Or.inr (by decide))⟩

/-! ### `connect()` double-spawn (C6) -/

/-- Claim C6 (code bug): `connect()` is a no-op when the wrapper is already
connected, but a second `connect()` call arriving while the first attempt is
still in flight — `isConnected` still `false`, one process already spawned —
runs `spawn` again, leaving two live child processes for the same server;
the code has no in-flight guard, contradicting the claimed at-most-one-
process invariant. -/
theorem connect_double_spawn :
    (connectCall ⟨true, 1⟩ = ⟨true, 1⟩) ∧
    (connectCall ⟨false, 0⟩).liveProcesses = 1 ∧
    (connectCall (connectCall ⟨false, 0⟩)).liveProcesses = 2 := by
  decide

/-! ### Tool cache and TTL (C3) -/

theorem refreshLoop_reqs (f : Str → Option (List Tool)) :
    ∀ (cls : List (Str × Bool)) (cache : List (Str × List NTool)),
      (refreshLoop f cls cache).2.2 =
        (cls.filter (fun q => q.2 && q.1 != excelName)).map Prod.fst := by
  intro cls
  induction cls with
  | nil =>
    intro cache
    rfl
  | cons q cls ih =>
    intro cache
    obtain ⟨n, conn⟩ := q
    cases conn with
    | false => simp [refreshLoop, ih, List.filter_cons]
    | true =>
      by_cases hn : n = excelName
      · subst hn
        simp [refreshLoop, ih, List.filter_cons]
      · cases hf : f n with
        | some ts => simp [refreshLoop, hn, hf, ih, List.filter_cons]
        | none => simp [refreshLoop, hn, hf, ih, List.filter_cons]

/-- Claim C3 (amended): a `getAllTools()` call while the time since the last
recorded refresh is below the 5-minute TTL and the cache is non-empty issues
zero discovery requests and returns the cached aggregate with the state
unchanged; a call once the cache is stale (TTL elapsed, or cache empty)
issues exactly one `tools/list` discovery request per server currently in
connected state — except the hard-coded server `excel-mcp`, whose
contribution is taken from the static fallback list with no protocol
request — and records the refresh timestamp in the resulting state only
after attempting all servers. -/
theorem getAllTools_cache_ttl (now : Nat) (f : Str → Option (List Tool))
    (s : MultiState) :
    (now - s.lastToolsRefresh < TOOLS_CACHE_TTL → 0 < s.toolsCache.length →
      getAllTools now f s =
        { tools := (s.toolsCache.map Prod.snd).flatten, final := s,
          reqs := [] }) ∧
    (¬(now - s.lastToolsRefresh < TOOLS_CACHE_TTL ∧ 0 < s.toolsCache.length) →
      (getAllTools now f s).reqs =
        (s.clients.filter (fun q => q.2 && q.1 != excelName)).map Prod.fst ∧
      (getAllTools now f s).final.lastToolsRefresh = now) ∧
    TOOLS_CACHE_TTL = 5 * 60 * 1000 := by
  refine ⟨?_, ?_, rfl⟩
  · intro h1 h2
    rw [getAllTools, if_pos ⟨h1, h2⟩]
  · intro h
    rw [getAllTools, if_neg h]
    exact ⟨refreshLoop_reqs f s.clients s.toolsCache, rfl⟩

/-- Claim C3 (counterexample): with the TTL elapsed, an empty cache and the
server `excel-mcp` registered and connected, `getAllTools` issues zero
discovery requests to `excel-mcp` (the static fallback list is substituted),
refuting "exactly one discovery round per server currently in connected
state". -/
theorem getAllTools_excel_no_discovery_request :
    ((str "excel-mcp", true) ∈
      (⟨[(str "excel-mcp", true)], [], 0⟩ : MultiState).clients) ∧
    ¬(TOOLS_CACHE_TTL - (⟨[(str "excel-mcp", true)], [], 0⟩ :
        MultiState).lastToolsRefresh < TOOLS_CACHE_TTL ∧
      0 < (⟨[(str "excel-mcp", true)], [], 0⟩ :
        MultiState).toolsCache.length) ∧
    (getAllTools TOOLS_CACHE_TTL (fun _ => none)
      ⟨[(str "excel-mcp", true)], [], 0⟩).reqs.count (str "excel-mcp") = 0 := by
  decide

/-- Witness for C3 (amended claim): a fresh-cache call on a state with one
cached slice, and a stale call on a state with one connected server `b`. -/
theorem getAllTools_cache_ttl_witness :
    (((0 : Nat) - (⟨[], [(str "a", [])], 0⟩ : MultiState).lastToolsRefresh
        < TOOLS_CACHE_TTL ∧
      0 < (⟨[], [(str "a", [])], 0⟩ : MultiState).toolsCache.length) ∧
      getAllTools 0 (fun _ => none) ⟨[], [(str "a", [])], 0⟩ =
        { tools := (((⟨[], [(str "a", [])], 0⟩ :
            MultiState).toolsCache.map Prod.snd)).flatten,
          final := ⟨[], [(str "a", [])], 0⟩, reqs := [] }) ∧
    (¬((0 : Nat) - (⟨[(str "b", true)], [], 0⟩ :
          MultiState).lastToolsRefresh < TOOLS_CACHE_TTL ∧
        0 < (⟨[(str "b", true)], [], 0⟩ : MultiState).toolsCache.length) ∧
      (getAllTools 0 (fun _ => none) ⟨[(str "b", true)], [], 0⟩).reqs =
        (((⟨[(str "b", true)], [], 0⟩ : MultiState).clients.filter
          (fun q => q.2 && q.1 != excelName)).map Prod.fst) ∧
      (getAllTools 0 (fun _ => none)
        ⟨[(str "b", true)], [], 0⟩).final.lastToolsRefresh = 0) := by
  constructor
  · exact ⟨⟨by decide, by decide⟩,
      (getAllTools_cache_ttl 0 (fun _ => none) ⟨[], [(str "a", [])], 0⟩).1
        (by decide) (by decide)⟩
  · have h := (getAllTools_cache_ttl 0 (fun _ => none)
      ⟨[(str "b", true)], [], 0⟩).2.1 (by decide)
    exact ⟨by decide, h.1, h.2⟩

/-! ### Namespacing and uniqueness (C4) -/

theorem prefixName_inj {a b x y : Str} (ha : '_' ∉ a) (hb : '_' ∉ b)
    (h : a ++ '_' :: x = b ++ '_' :: y) : a = b ∧ x = y := by
  induction a generalizing b with
  | nil =>
    cases b with
    | nil => simpa using h
    | cons d bs =>
      simp only [List.nil_append, List.cons_append, List.cons.injEq] at h
      exact absurd (h.1 ▸ List.mem_cons_self d bs) hb
  | cons c as ih =>
    cases b with
    | nil =>
      simp only [List.cons_append, List.nil_append, List.cons.injEq] at h
      exact absurd (h.1 ▸ List.mem_cons_self c as) ha
    | cons d bs =>
      simp only [List.cons_append, List.cons.injEq] at h
      have has : '_' ∉ as := fun hm => ha (List.mem_cons_of_mem c hm)
      have hbs : '_' ∉ bs := fun hm => hb (List.mem_cons_of_mem d hm)
      obtain ⟨h1, h2⟩ := ih has hbs h.2
      exact ⟨by rw [h.1, h1], h2⟩

theorem prefix_injective (k : Str) :
    Function.Injective (fun x : Str => k ++ '_' :: x) := by
  intro x y h
  simpa using h

theorem excel_tool_names_nodup :
    (getExcelMCPServerTools.map Tool.name).Nodup := by
  decide

theorem nodup_prefixed_names {k : Str} {ts : List Tool}
    (h : (ts.map Tool.name).Nodup) :
    ((ts.map (prefixTool k)).map NTool.name).Nodup := by
  have heq : (ts.map (prefixTool k)).map NTool.name
      = (ts.map Tool.name).map (fun x => k ++ '_' :: x) := by
    simp [prefixTool, Function.comp_def]
  rw [heq]
  exact h.map (prefix_injective k)

theorem serverSlice_wf (f : Str → Option (List Tool))
    (hf : ∀ n ts, f n = some ts → (ts.map Tool.name).Nodup) (q : Str × Bool) :
    ∃ ts : List Tool, serverSlice f q = ts.map (prefixTool q.1) ∧
      (ts.map Tool.name).Nodup := by
  rw [serverSlice]
  split
  · split
    · exact ⟨getExcelMCPServerTools, rfl, excel_tool_names_nodup⟩
    · cases hf2 : f q.1 with
      | some ts => exact ⟨ts, rfl, hf _ _ hf2⟩
      | none => exact ⟨[], rfl, List.nodup_nil⟩
  · exact ⟨[], rfl, List.nodup_nil⟩

theorem mem_map_prefixTool {k : Str} {ts : List Tool} {t : NTool}
    (ht : t ∈ ts.map (prefixTool k)) :
    t.serverName = k ∧ ∃ tool : Tool, t = prefixTool k tool := by
  rw [List.mem_map] at ht
  obtain ⟨tool, _, rfl⟩ := ht
  exact ⟨rfl, tool, rfl⟩

theorem refreshLoop_tools (f : Str → Option (List Tool)) :
    ∀ (cls : List (Str × Bool)) (cache : List (Str × List NTool)),
      (refreshLoop f cls cache).1 = cls.flatMap (serverSlice f) := by
  intro cls
  induction cls with
  | nil =>
    intro cache
    rfl
  | cons q cls ih =>
    intro cache
    obtain ⟨n, conn⟩ := q
    cases conn with
    | false => simp [refreshLoop, serverSlice, ih]
    | true =>
      by_cases hn : n = excelName
      · subst hn
        simp [refreshLoop, serverSlice, ih]
      · cases hf : f n with
        | some ts => simp [refreshLoop, serverSlice, hn, hf, ih]
        | none => simp [refreshLoop, serverSlice, hn, hf, ih]

theorem flatMap_slices_mem {f : Str → Option (List Tool)}
    (hf : ∀ n ts, f n = some ts → (ts.map Tool.name).Nodup)
    {cls : List (Str × Bool)} {t : NTool}
    (ht : t ∈ cls.flatMap (serverSlice f)) :
    ∃ q ∈ cls, t.serverName = q.1 ∧ ∃ tool : Tool, t = prefixTool q.1 tool := by
  rw [List.mem_flatMap] at ht
  obtain ⟨q, hq, hts⟩ := ht
  obtain ⟨ts, hts_eq, _⟩ := serverSlice_wf f hf q
  rw [hts_eq] at hts
  exact ⟨q, hq, mem_map_prefixTool hts⟩

theorem nodup_flatMap_slices (f : Str → Option (List Tool))
    (hf : ∀ n ts, f n = some ts → (ts.map Tool.name).Nodup) :
    ∀ cls : List (Str × Bool),
      (cls.map Prod.fst).Nodup → (∀ q ∈ cls, '_' ∉ q.1) →
      ((cls.flatMap (serverSlice f)).map NTool.name).Nodup := by
  intro cls
  induction cls with
  | nil =>
    intro _ _
    simp
  | cons q cls ih =>
    intro hnodup hsep
    rw [List.flatMap_cons, List.map_append, List.nodup_append]
    have hnodup' : (cls.map Prod.fst).Nodup :=
      (List.nodup_cons.mp (by simpa using hnodup)).2
    have hq_notin : q.1 ∉ cls.map Prod.fst :=
      (List.nodup_cons.mp (by simpa using hnodup)).1
    refine ⟨?_, ih hnodup' (fun q' h' => hsep q' (List.mem_cons_of_mem q h')), ?_⟩
    · obtain ⟨ts, hts_eq, hts_nodup⟩ := serverSlice_wf f hf q
      rw [hts_eq]
      exact nodup_prefixed_names hts_nodup
    · intro a ha hatail
      rw [List.mem_map] at ha hatail
      obtain ⟨t1, ht1, rfl⟩ := ha
      obtain ⟨t2, ht2, hnames⟩ := hatail
      obtain ⟨ts, hts_eq, _⟩ := serverSlice_wf f hf q
      rw [hts_eq] at ht1
      obtain ⟨hsn1, tool1, rfl⟩ := mem_map_prefixTool ht1
      obtain ⟨q', hq', hsn2, tool2, rfl⟩ := flatMap_slices_mem hf ht2
      have hname_eq : q'.1 ++ '_' :: tool2.name = q.1 ++ '_' :: tool1.name := by
        simpa [prefixTool] using hnames
      have hsep_q : '_' ∉ q.1 := hsep q (List.mem_cons_self q cls)
      have hsep_q' : '_' ∉ q'.1 := hsep q' (List.mem_cons_of_mem q hq')
      have := (prefixName_inj hsep_q' hsep_q hname_eq).1
      apply hq_notin
      rw [List.mem_map]
      exact ⟨q', hq', this⟩

theorem cache_slices_mem :
    ∀ (cache : List (Str × List NTool)), (∀ q ∈ cache, sliceWF q.1 q.2) →
      ∀ t ∈ (cache.map Prod.snd).flatten,
        ∃ q ∈ cache, t.serverName = q.1 ∧ ∃ tool : Tool, t = prefixTool q.1 tool := by
  intro cache
  induction cache with
  | nil =>
    intro _ t ht
    simp at ht
  | cons q cache ih =>
    intro hwf t ht
    simp only [List.map_cons, List.flatten_cons, List.mem_append] at ht
    rcases ht with ht | ht
    · obtain ⟨ts, hts_eq, _⟩ := hwf q (List.mem_cons_self q cache)
      rw [hts_eq] at ht
      exact ⟨q, List.mem_cons_self q cache, mem_map_prefixTool ht⟩
    · obtain ⟨q', hq', hrest⟩ :=
        ih (fun p hp => hwf p (List.mem_cons_of_mem q hp)) t ht
      exact ⟨q', List.mem_cons_of_mem q hq', hrest⟩

theorem nodup_cache_names :
    ∀ (cache : List (Str × List NTool)), (∀ q ∈ cache, sliceWF q.1 q.2) →
      (cache.map Prod.fst).Nodup → (∀ q ∈ cache, '_' ∉ q.1) →
      (((cache.map Prod.snd).flatten).map NTool.name).Nodup := by
  intro cache
  induction cache with
  | nil =>
    intro _ _ _
    simp
  | cons q cache ih =>
    intro hwf hnodup hsep
    simp only [List.map_cons, List.flatten_cons, List.map_append]
    rw [List.nodup_append]
    have hnodup' : (cache.map Prod.fst).Nodup :=
      (List.nodup_cons.mp (by simpa using hnodup)).2
    have hq_notin : q.1 ∉ cache.map Prod.fst :=
      (List.nodup_cons.mp (by simpa using hnodup)).1
    refine ⟨?_, ih (fun p hp => hwf p (List.mem_cons_of_mem q hp)) hnodup'
      (fun p hp => hsep p (List.mem_cons_of_mem q hp)), ?_⟩
    · obtain ⟨ts, hts_eq, hts_nodup⟩ := hwf q (List.mem_cons_self q cache)
      rw [hts_eq]
      exact nodup_prefixed_names hts_nodup
    · intro a ha hatail
      rw [List.mem_map] at ha hatail
      obtain ⟨t1, ht1, rfl⟩ := ha
      obtain ⟨t2, ht2, hnames⟩ := hatail
      obtain ⟨ts, hts_eq, _⟩ := hwf q (List.mem_cons_self q cache)
      rw [hts_eq] at ht1
      obtain ⟨hsn1, tool1, rfl⟩ := mem_map_prefixTool ht1
      obtain ⟨q', hq', hsn2, tool2, rfl⟩ :=
        cache_slices_mem cache (fun p hp => hwf p (List.mem_cons_of_mem q hp)) t2 ht2
      have hname_eq : q'.1 ++ '_' :: tool2.name = q.1 ++ '_' :: tool1.name := by
        simpa [prefixTool] using hnames
      have hsep_q : '_' ∉ q.1 := hsep q (List.mem_cons_self q cache)
      have hsep_q' : '_' ∉ q'.1 := hsep q' (List.mem_cons_of_mem q hq')
      have := (prefixName_inj hsep_q' hsep_q hname_eq).1
      apply hq_notin
      rw [List.mem_map]
      exact ⟨q', hq', this⟩

theorem getAllTools_tools_paths (now : Nat) (f : Str → Option (List Tool))
    (s : MultiState) :
    (getAllTools now f s).tools = (s.toolsCache.map Prod.snd).flatten ∨
    (getAllTools now f s).tools = s.clients.flatMap (serverSlice f) := by
  rw [getAllTools]
  split
  · left
    rfl
  · right
    exact refreshLoop_tools f s.clients s.toolsCache

/-- Claim C4 (amended): whenever server names are pairwise distinct AND
contain no `'_'` separator, every server reports tool lists with
pairwise-distinct names, and the cache is well-formed (as it is from the
initial empty cache onward), every tool returned by `getAllTools()` has
visible name `{serverName}_{originalName}` for its owning server, and the
names in the returned list are pairwise distinct.  (The extra hypotheses are
forced: a server name containing `'_'` or a duplicated original name makes
the claimed uniqueness fail, see the counterexample.) -/
theorem getAllTools_names_namespaced_unique (now : Nat)
    (f : Str → Option (List Tool)) (s : MultiState)
    (hclients : (s.clients.map Prod.fst).Nodup)
    (hsep : ∀ q ∈ s.clients, '_' ∉ q.1)
    (hf : ∀ n ts, f n = some ts → (ts.map Tool.name).Nodup)
    (hcache : cacheWF s) :
    (∀ t ∈ (getAllTools now f s).tools,
      ∃ orig : Str, t.name = t.serverName ++ '_' :: orig) ∧
    ((getAllTools now f s).tools.map NTool.name).Nodup := by
  obtain ⟨hwf, hknodup, hksep⟩ := hcache
  rcases getAllTools_tools_paths now f s with hpath | hpath <;> rw [hpath]
  · constructor
    · intro t ht
      obtain ⟨q, hq, hsn, tool, rfl⟩ := cache_slices_mem s.toolsCache hwf t ht
      exact ⟨tool.name, by simp [prefixTool]⟩
    · exact nodup_cache_names s.toolsCache hwf hknodup hksep
  · constructor
    · intro t ht
      obtain ⟨q, hq, hsn, tool, rfl⟩ := flatMap_slices_mem hf ht
      exact ⟨tool.name, by simp [prefixTool]⟩
    · exact nodup_flatMap_slices f hf s.clients hclients hsep

/-- Claim C4 (counterexample): the uniquely-named servers `a` and `a_b`,
reporting tools `b_c` and `c` respectively, both produce the visible name
`a_b_c`, so the returned names are not pairwise distinct even though server
names are unique. -/
theorem getAllTools_separator_collision :
    ((([(str "a", true), (str "a_b", true)] :
        List (Str × Bool)).map Prod.fst).Nodup) ∧
    ¬((getAllTools 0
        (fun n => if n = str "a" then some [⟨str "b_c"⟩]
          else if n = str "a_b" then some [⟨str "c"⟩] else none)
        ⟨[(str "a", true), (str "a_b", true)], [], 0⟩).tools.map
          NTool.name).Nodup := by
  decide

/-- Witness for C4 (amended claim): one connected server `a` reporting tools
`t1`, `t2`, starting from the empty cache. -/
theorem getAllTools_names_namespaced_unique_witness :
    (((⟨[(str "a", true)], [], 0⟩ : MultiState).clients.map Prod.fst).Nodup ∧
      (∀ q ∈ (⟨[(str "a", true)], [], 0⟩ : MultiState).clients, '_' ∉ q.1) ∧
      (∀ (n : Str) (ts : List Tool),
        (fun _ : Str => some [(⟨str "t1"⟩ : Tool), ⟨str "t2"⟩]) n = some ts →
        (ts.map Tool.name).Nodup) ∧
      cacheWF ⟨[(str "a", true)], [], 0⟩) ∧
    ((∀ t ∈ (getAllTools 0 (fun _ : Str => some [(⟨str "t1"⟩ : Tool), ⟨str "t2"⟩])
        ⟨[(str "a", true)], [], 0⟩).tools,
      ∃ orig : Str, t.name = t.serverName ++ '_' :: orig) ∧
    ((getAllTools 0 (fun _ : Str => some [(⟨str "t1"⟩ : Tool), ⟨str "t2"⟩])
        ⟨[(str "a", true)], [], 0⟩).tools.map NTool.name).Nodup) := by
  have hf : ∀ (n : Str) (ts : List Tool),
      (fun _ : Str => some [(⟨str "t1"⟩ : Tool), ⟨str "t2"⟩]) n
      = some ts → (ts.map Tool.name).Nodup := by
    intro n ts h
    cases h
    decide
  have hcache : cacheWF ⟨[(str "a", true)], [], 0⟩ :=
    ⟨fun q hq => absurd hq (List.not_mem_nil q), List.nodup_nil,
      fun q hq => absurd hq (List.not_mem_nil q)⟩
  exact ⟨⟨by decide, by decide, hf, hcache⟩,
    getAllTools_names_namespaced_unique 0
      (fun _ : Str => some [(⟨str "t1"⟩ : Tool), ⟨str "t2"⟩])
      ⟨[(str "a", true)], [], 0⟩ (by decide) (by decide) hf hcache⟩

/-! ### Dispatcher validation (C5) -/

/-- Claim C5: for every namespaced tool name, `executeTool` fails with the
unknown-server error when the prefix before the first separator is not a
registered server, and fails with the not-connected error when that server
is registered but not connected; in both cases nothing is written to any
child process. -/
theorem executeTool_validation (clients : List (Str × Bool)) (toolName : Str) :
    (lookupClient clients ((splitSep '_' toolName).headD []) = none →
      executeTool clients toolName =
        ExecOutcome.unknownServer ((splitSep '_' toolName).headD []) ∧
      processWrites (executeTool clients toolName) = []) ∧
    (lookupClient clients ((splitSep '_' toolName).headD []) = some false →
      executeTool clients toolName =
        ExecOutcome.notConnected ((splitSep '_' toolName).headD []) ∧
      processWrites (executeTool clients toolName) = []) := by
  constructor
  · intro h
    have he : executeTool clients toolName =
        ExecOutcome.unknownServer ((splitSep '_' toolName).headD []) := by
      rw [executeTool]
      rw [h]
    exact ⟨he, by rw [he]; rfl⟩
  · intro h
    have he : executeTool clients toolName =
        ExecOutcome.notConnected ((splitSep '_' toolName).headD []) := by
      rw [executeTool]
      rw [h]
      rfl
    exact ⟨he, by rw [he]; rfl⟩

/-- Witness for C5: `unknownserver_foo` against a registry containing only
`real` (connected: `false`), and `real_foo` against the same registry. -/
theorem executeTool_validation_witness :
    (lookupClient [(str "real", false)]
        ((splitSep '_' (str "unknownserver_foo")).headD []) = none ∧
      executeTool [(str "real", false)] (str "unknownserver_foo") =
        ExecOutcome.unknownServer
          ((splitSep '_' (str "unknownserver_foo")).headD []) ∧
      processWrites
        (executeTool [(str "real", false)] (str "unknownserver_foo")) = []) ∧
    (lookupClient [(str "real", false)]
        ((splitSep '_' (str "real_foo")).headD []) = some false ∧
      executeTool [(str "real", false)] (str "real_foo") =
        ExecOutcome.notConnected ((splitSep '_' (str "real_foo")).headD []) ∧
      processWrites (executeTool [(str "real", false)] (str "real_foo"))
        = []) := by
  constructor
  · have h := (executeTool_validation [(str "real", false)]
      (str "unknownserver_foo")).1 (by decide)
    exact ⟨by decide, h.1, h.2⟩
  · have h := (executeTool_validation [(str "real", false)]
      (str "real_foo")).2 (by decide)
    exact ⟨by decide, h.1, h.2⟩

/-! ### Discovery degraded mode (C9) -/

/-- Claim C9 (counterexample): for the server `firecrawl` — not known to
lack discovery support — a failing `tools/list` (both the bare call and the
retry with empty params reject) still yields the empty list instead of
propagating the failure, refuting "returns an empty list ... exactly when
the server is known to not support discovery". -/
theorem listTools_swallows_failure_any_server :
    listTools (str "firecrawl") (Except.error (str "boom"))
        (Except.error (str "boom")) = [] ∧
    str "firecrawl" ≠ excelName := by
  decide

/-- Claim C9 (amended): when the `tools/list` request fails (the bare call
and the retry with empty params both reject), `listTools` returns the empty
list for every server, not only those known to lack discovery; and
`getAllTools` never surfaces the failure — for the connected `excel-mcp`
server it substitutes the statically declared fallback list without issuing
any discovery request. -/
theorem listTools_degraded_mode (serverName e1 e2 : Str) :
    listTools serverName (Except.error e1) (Except.error e2) = [] ∧
    (getAllTools 0 (fun _ : Str => none)
        ⟨[(excelName, true)], [], 0⟩).tools =
      getExcelMCPServerTools.map (prefixTool excelName) ∧
    (getAllTools 0 (fun _ : Str => none)
        ⟨[(excelName, true)], [], 0⟩).reqs = [] := by
  refine ⟨?_, by decide, by decide⟩
  rw [listTools]
  exact ite_self []

/-! ### Integration-layer dispatch (C10) -/

/-- Claim C10: a tool name without any underscore is never dispatched
through `MultiMCPClient` — `executeMCPTool` connects the singleton firecrawl
client and forwards the un-namespaced name to its `callTool` — while every
name containing at least one underscore is dispatched via
`multiMCPClient.executeTool`. -/
theorem executeMCPTool_dispatch (toolName : Str) :
    (toolName.contains '_' = false →
      executeMCPTool toolName =
        [DispatchAction.firecrawlConnect,
         DispatchAction.firecrawlCallTool toolName] ∧
      ∀ m : Str, DispatchAction.multiExecute m ∉ executeMCPTool toolName) ∧
    (toolName.contains '_' = true →
      executeMCPTool toolName = [DispatchAction.multiExecute toolName]) := by
  constructor
  · intro h
    have he : executeMCPTool toolName =
        [DispatchAction.firecrawlConnect,
         DispatchAction.firecrawlCallTool toolName] := by
      rw [executeMCPTool, h]
      rfl
    refine ⟨he, ?_⟩
    intro m hm
    rw [he] at hm
    rcases List.mem_cons.mp hm with h1 | h1
    · cases h1
    · rw [List.mem_singleton] at h1
      cases h1
  · intro h
    rw [executeMCPTool, h]
    rfl

/-- Witness for C10: the un-namespaced name `scrape` and the namespaced name
`firecrawl_scrape`. -/
theorem executeMCPTool_dispatch_witness :
    ((str "scrape").contains '_' = false ∧
      executeMCPTool (str "scrape") =
        [DispatchAction.firecrawlConnect,
         DispatchAction.firecrawlCallTool (str "scrape")] ∧
      ∀ m : Str, DispatchAction.multiExecute m ∉ executeMCPTool (str "scrape")) ∧
    ((str "firecrawl_scrape").contains '_' = true ∧
      executeMCPTool (str "firecrawl_scrape") =
        [DispatchAction.multiExecute (str "firecrawl_scrape")]) := by
  constructor
  · have h := (executeMCPTool_dispatch (str "scrape")).1 (by decide)
    exact ⟨by decide, h.1, h.2⟩
  · exact ⟨by decide, (executeMCPTool_dispatch (str "firecrawl_scrape")).2
      (by decide)⟩
